import Mathlib

/-!
Verification of the Tech-Thrive PIR backend (`server/app`).

The Python modules are shallowly embedded: dictionaries become association
lists whose keys are unique in every state a real `dict` can reach, byte
strings become `List Int` with entries in `[0, 255]`, and fallible code
returns `Except`/`Option` or a `Bool × state` pair.  External library
primitives (gzip, hashlib, Python `int()` parsing) are taken as function
parameters, so every theorem about them is universally quantified over the
primitive.
-/

namespace TechThrive

/-- A byte string: numpy/Python bytes modelled as a list of integers. -/
abbrev Bytes := List Int

/-- `config.CHUNK_SIZE`. -/
def CHUNK_SIZE : Nat := 4096

/-- `config.K`: number of query vectors per PIR request. -/
def K : Nat := 3

/-- `config.SESSION_TTL` in seconds. -/
def SESSION_TTL : Int := 900

/-- Python `dict.get`: first binding of the key in an association list
(real dict states have unique keys, so "first" is "the"). -/
def alookup {κ α : Type} [DecidableEq κ] : List (κ × α) → κ → Option α
  | [], _ => none
  | (k, v) :: rest, k' => if k = k' then some v else alookup rest k'

/-- Python dict assignment `d[k] = v`: replace the binding if the key is
present, otherwise append a fresh binding. -/
def dictSet {κ α : Type} [DecidableEq κ] (m : List (κ × α)) (k : κ) (v : α) :
    List (κ × α) :=
  if (alookup m k).isSome then
    m.map (fun p => if p.1 = k then (k, v) else p)
  else
    m ++ [(k, v)]

/-- `loader.CHUNKS` inner level: chunk_index → raw bytes. -/
abbrev ChunkMap := List (Int × Bytes)

/-- `loader.CHUNKS`: module_id → chunk_index → raw bytes. -/
abbrev Cache := List (Int × ChunkMap)

/-- `ByteKpirEngine.module_ids = sorted(cache.keys())`. -/
def sortedModuleIds (cache : Cache) : List Int :=
  List.insertionSort (· ≤ ·) (cache.map Prod.fst)

/-- `ByteKpirEngine.n_modules`. -/
def nModules (cache : Cache) : Nat :=
  (sortedModuleIds cache).length

/-- `ByteKpirEngine.__init__`: rejects an empty cache, otherwise stores it. -/
def engineInit (cache : Cache) : Except String Cache :=
  if nModules cache = 0 then .error "No modules loaded in cache" else .ok cache

/-- The padding step of `ByteKpirEngine.compute`: right-pad a chunk with zero
bytes up to `CHUNK_SIZE` (chunks longer than `CHUNK_SIZE` are left as is,
exactly as in the source). -/
def padRow (chunk : Bytes) : Bytes :=
  if chunk.length < CHUNK_SIZE then
    chunk ++ List.replicate (CHUNK_SIZE - chunk.length) 0
  else chunk

/-- Row of the module matrix for one module id:
`self.cache[module_id].get(chunk_idx, b'')`, padded. -/
def matrixRow (cache : Cache) (chunkIdx : Int) (mid : Int) : Bytes :=
  padRow ((alookup ((alookup cache mid).getD []) chunkIdx).getD [])

/-- `M = np.stack(chunks)`: the rows in canonical (ascending id) order.
`np.stack` additionally requires all rows to have one common length; that is
guaranteed whenever every stored chunk is at most `CHUNK_SIZE` bytes, which
holds for every cache the loader builds from the preprocess pipeline. -/
def buildMatrix (cache : Cache) (chunkIdx : Int) : List Bytes :=
  (sortedModuleIds cache).map (matrixRow cache chunkIdx)

/-- One coordinate of `vec @ M`: the dot product of `v` with column `j` of
the matrix.  numpy accumulates in int32; wrap-around modulo 2^32 cannot
change the value modulo 256 because 256 divides 2^32, so the exact integer
sum is a faithful model of the reduced output byte. -/
def dotColumn (v : List Int) (M : List Bytes) (j : Nat) : Int :=
  match v, M with
  | a :: v', r :: M' => a * r.getD j 0 + dotColumn v' M' j
  | _, _ => 0

/-- `(vec @ M) % 256` rendered as `CHUNK_SIZE` bytes. -/
def respond (M : List Bytes) (v : List Int) : Bytes :=
  (List.range CHUNK_SIZE).map (fun j => dotColumn v M j % 256)

/-- The per-vector validation loop of `ByteKpirEngine.compute`: first failing
vector wins, length is checked before the byte-range scan. -/
def checkVectors (n : Nat) : List (List Int) → Option String
  | [] => none
  | v :: rest =>
    if v.length ≠ n then some "Vector length mismatch"
    else if v.any (fun x => x < 0 || 255 < x) then
      some "Vector contains values outside Z_256"
    else checkVectors n rest

/-- `ByteKpirEngine.compute`. -/
def compute (cache : Cache) (vectors : List (List Int)) (chunkIdx : Int) :
    Except String (List Bytes) :=
  if vectors.length ≠ K then .error "Wrong number of vectors"
  else
    match checkVectors (nModules cache) vectors with
    | some e => .error e
    | none => .ok (vectors.map (respond (buildMatrix cache chunkIdx)))

/-- The matrix row exactly as the claim words it: the stored chunk
right-padded with zero bytes to `CHUNK_SIZE`, all-zero when the module has
no entry at the chunk index. -/
def claimedRow (cache : Cache) (chunkIdx : Int) (mid : Int) : Bytes :=
  match alookup cache mid with
  | none => List.replicate CHUNK_SIZE 0
  | some cm =>
    match alookup cm chunkIdx with
    | none => List.replicate CHUNK_SIZE 0
    | some chunk => chunk ++ List.replicate (CHUNK_SIZE - chunk.length) 0

/-- The response byte exactly as the claim words it: the sum over modules in
ascending module-id order of the vector coordinate times the row byte,
reduced mod 256. -/
def claimedByte (cache : Cache) (chunkIdx : Int) (v : List Int) (j : Nat) : Int :=
  (((sortedModuleIds cache).zip v).map
    (fun p => p.2 * (claimedRow cache chunkIdx p.1).getD j 0)).sum % 256

/-! ### Session store (`session.py`) -/

/-- One value of the `SESSIONS` dict. -/
structure Session where
  ghost_id : String
  expires : Int
deriving DecidableEq, Repr

/-- `SESSIONS : dict[str, dict]`, token → session. -/
abbrev SessionStore := List (String × Session)

/-- Python `del SESSIONS[token]`: drop the binding of the token. -/
def sessErase : SessionStore → String → SessionStore
  | [], _ => []
  | (k, s0) :: rest, tok =>
    if k = tok then sessErase rest tok else (k, s0) :: sessErase rest tok

/-- Assignment `SESSIONS[token]["expires"] = ...` rebinding an existing
token. -/
def sessSet : SessionStore → String → Session → SessionStore
  | [], _, _ => []
  | (k, s0) :: rest, tok, v =>
    (if k = tok then (tok, v) else (k, s0)) :: sessSet rest tok v

/-- `session.validate_session`, with the wall clock passed explicitly.
Returns the boolean result together with the store after the call. -/
def validate_session (now : Int) (s : SessionStore) (tok : String) :
    Bool × SessionStore :=
  match alookup s tok with
  | none => (false, s)
  | some sess =>
    if sess.expires < now then (false, sessErase s tok)
    else (true, sessSet s tok { sess with expires := now + SESSION_TTL })

/-! ### Catalog store (`catalog.py`) -/

/-- One row of the `modules` relation. -/
structure ModuleRow where
  id : Int
  title : String
  topic : String
  tier : Int
  chunk_count : Int
  compressed_size : Int
  filename : String
deriving DecidableEq, Repr

/-- One row of the `quizzes` relation (`options` kept as its JSON text). -/
structure QuizRow where
  id : Int
  module_id : Int
  question : String
  options : String
  correct : Int
deriving DecidableEq, Repr

/-- The state of `catalog.db`. -/
structure CatalogDB where
  modules : List ModuleRow
  quizzes : List QuizRow
deriving DecidableEq, Repr

/-- SQLite `DELETE FROM modules WHERE id=?` issued on a connection whose
foreign-key enforcement flag is `fk`.  The schema declares
`quizzes.module_id ... ON DELETE CASCADE`, but SQLite only fires the cascade
when the executing connection has `PRAGMA foreign_keys=ON`.  Returns the
`rowcount` and the database after commit. -/
def sqliteDeleteModule (fk : Bool) (db : CatalogDB) (mid : Int) :
    Nat × CatalogDB :=
  ((db.modules.filter (fun r => r.id = mid)).length,
   { modules := db.modules.filter (fun r => r.id ≠ mid),
     quizzes :=
       if fk then db.quizzes.filter (fun q => q.module_id ≠ mid)
       else db.quizzes })

/-- `catalog.delete_module`: opens a fresh `sqlite3.connect(DB_PATH)`
connection and never executes `PRAGMA foreign_keys=ON` on it (`init_db`
enabled the pragma only on its own, since-closed connection), so the
connection runs with SQLite's per-connection default `foreign_keys=OFF`. -/
def delete_module (db : CatalogDB) (mid : Int) : Bool × CatalogDB :=
  let r := sqliteDeleteModule false db mid
  (0 < r.1, r.2)

/-- The Python truthiness test `if topic:` guarding the topic filter of
`get_bucket`: the filter applies only for a present, non-empty string. -/
def passesTopic : Option String → ModuleRow → Bool
  | none, _ => true
  | some t, r => if t = "" then true else r.topic = t

/-- The Python truthiness test `if tier:` guarding the tier filter of
`get_bucket`: the filter applies only for a present, non-zero tier. -/
def passesTier : Option Int → ModuleRow → Bool
  | none, _ => true
  | some t, r => if t = 0 then true else r.tier = t

/-- `catalog.get_bucket`: `SELECT ... FROM modules WHERE ... ORDER BY id ASC`
with the two optional conjunctive filters. -/
def get_bucket (db : List ModuleRow) (topic : Option String)
    (tier : Option Int) : List ModuleRow :=
  List.insertionSort (fun a b => a.id ≤ b.id)
    (db.filter (fun r => passesTopic topic r && passesTier tier r))

/-! ### Chunk loader (`loader.py`) -/

/-- One entry of `os.listdir(CHUNK_DIR)`: a name, whether it is a
directory, and (for directories) the directory's own file listing as
name/content pairs. -/
structure DirEntry where
  name : String
  isDir : Bool
  files : List (String × Bytes)
deriving Repr

/-- One iteration of the file loop of `preload_chunks`: keep a file when its
name ends in `.bin` and its stem parses as an integer (`pyInt` stands for
Python's `int(...)`, returning `none` where `int` raises `ValueError`). -/
def loadFileStep (pyInt : String → Option Int) (cm : ChunkMap)
    (f : String × Bytes) : ChunkMap :=
  if f.1.endsWith ".bin" then
    match pyInt (f.1.dropRight 4) with
    | some j => dictSet cm j f.2
    | none => cm
  else cm

/-- The inner loop of `preload_chunks` over one module directory. -/
def loadModuleDir (pyInt : String → Option Int)
    (files : List (String × Bytes)) : ChunkMap :=
  files.foldl (loadFileStep pyInt) []

/-- One iteration of the directory loop of `preload_chunks`: skip plain
files, names that do not parse as integers, and ids with no catalog row. -/
def preloadStep (pyInt : String → Option Int) (validIds : List Int)
    (cache : Cache) (e : DirEntry) : Cache :=
  if e.isDir then
    match pyInt e.name with
    | some mid =>
      if mid ∈ validIds then dictSet cache mid (loadModuleDir pyInt e.files)
      else cache
    | none => cache
  else cache

/-- `loader.preload_chunks`: rebuild the cache from the directory listing,
keeping only subdirectories whose names parse as integers and whose parsed id
is among the module ids currently in the database. -/
def preload_chunks (pyInt : String → Option Int) (validIds : List Int)
    (entries : List DirEntry) : Cache :=
  entries.foldl (preloadStep pyInt validIds) []

/-- The `/catalog` route of `main.py`: the DB rows surviving the optional
filters, restricted to module ids loaded in the chunk cache. -/
def catalogModules (cache : Cache) (db : List ModuleRow)
    (topic : Option String) (tier : Option Int) : List ModuleRow :=
  (get_bucket db topic tier).filter (fun r => r.id ∈ cache.map Prod.fst)

/-! ### Ingest pipeline (`preprocess.py`) -/

/-- `[compressed[i:i+CHUNK_SIZE] for i in range(0, len(compressed), CHUNK_SIZE)]`. -/
def splitChunks (l : Bytes) : List Bytes :=
  if l = [] then []
  else l.take CHUNK_SIZE :: splitChunks (l.drop CHUNK_SIZE)
termination_by l.length
decreasing_by
  simp only [List.length_drop, CHUNK_SIZE]
  have : l.length ≠ 0 := by simpa [List.length_eq_zero] using (by assumption : ¬l = [])
  omega

/-- The observable output of `preprocess.process_module`: the chunk count
registered in the catalog row, the compressed size, and the `<j>.bin` files
written (index paired with content) under the store-assigned directory. -/
structure ProcessedModule where
  chunk_count : Nat
  compressed_size : Nat
  files : List (Nat × Bytes)
deriving Repr

/-- `preprocess.process_module`, parametrised by the compressor (gzip). -/
def process_module (compress : Bytes → Bytes) (raw : Bytes) : ProcessedModule :=
  let compressed := compress raw
  let chunks := splitChunks compressed
  { chunk_count := chunks.length,
    compressed_size := compressed.length,
    files := chunks.enum }

/-! ### Integrity (`integrity.py` and the `/integrity` route) -/

/-- The `/integrity` route: 404 when either the module or the chunk index is
absent from the cache, otherwise the hex digest of the stored bytes.
`sha256hex` stands for `hashlib.sha256(...).hexdigest()`. -/
def integrityEndpoint (sha256hex : Bytes → String) (cache : Cache)
    (mid c : Int) : Except (Nat × String) String :=
  match alookup cache mid with
  | none => .error (404, "Module not found")
  | some cm =>
    match alookup cm c with
    | none => .error (404, "Chunk not found")
    | some data => .ok (sha256hex data)

/-! ### Sample data for witnesses and counterexamples -/

def sampleModule : ModuleRow :=
  { id := 1, title := "A", topic := "x", tier := 1, chunk_count := 1,
    compressed_size := 6, filename := "hello.txt" }

def sampleQuiz : QuizRow :=
  { id := 1, module_id := 1, question := "q", options := "[]", correct := 0 }

/-! ### Helper lemmas -/

theorem alookup_sessErase (s : SessionStore) (tok : String) :
    alookup (sessErase s tok) tok = none := by
  induction s with
  | nil => rfl
  | cons p rest ih =>
    rcases p with ⟨k, s0⟩
    by_cases h : k = tok
    · simpa [sessErase, h] using ih
    · simpa [sessErase, alookup, h] using ih

theorem alookup_sessSet (s : SessionStore) (tok : String) (sess v : Session)
    (h : alookup s tok = some sess) :
    alookup (sessSet s tok v) tok = some v := by
  induction s with
  | nil => simp [alookup] at h
  | cons p rest ih =>
    rcases p with ⟨k, s0⟩
    have hcons : sessSet ((k, s0) :: rest) tok v =
        (if k = tok then (tok, v) else (k, s0)) :: sessSet rest tok v := rfl
    by_cases hk : k = tok
    · rw [hcons, if_pos hk]
      simp [alookup]
    · rw [hcons, if_neg hk]
      simp only [alookup, if_neg hk] at h
      simpa [alookup, hk] using ih h

theorem nModules_eq_length (cache : Cache) : nModules cache = cache.length := by
  unfold nModules sortedModuleIds
  rw [(List.perm_insertionSort _ _).length_eq, List.length_map]

theorem alookup_of_mem_keys {κ α : Type} [DecidableEq κ] (m : List (κ × α))
    (k : κ) (h : k ∈ m.map Prod.fst) :
    ∃ v, alookup m k = some v ∧ (k, v) ∈ m := by
  induction m with
  | nil => simp at h
  | cons p rest ih =>
    rcases p with ⟨k0, v0⟩
    by_cases hk : k0 = k
    · subst hk
      exact ⟨v0, by simp [alookup], by simp⟩
    · have hmem : k ∈ rest.map Prod.fst := by
        rcases (by simpa using h : k = k0 ∨ ∃ x, (k, x) ∈ rest) with h' | ⟨x, hx⟩
        · exact absurd h'.symm hk
        · exact List.mem_map.mpr ⟨(k, x), hx, rfl⟩
      rcases ih hmem with ⟨v, hv, hm⟩
      exact ⟨v, by simpa [alookup, hk] using hv, by simp [hm]⟩

theorem padRow_eq_append (chunk : Bytes) :
    padRow chunk = chunk ++ List.replicate (CHUNK_SIZE - chunk.length) 0 := by
  unfold padRow
  by_cases h : chunk.length < CHUNK_SIZE
  · simp [h]
  · have h0 : CHUNK_SIZE - chunk.length = 0 := Nat.sub_eq_zero_of_le (le_of_not_lt h)
    simp [h, h0]

theorem padRow_nil : padRow [] = List.replicate CHUNK_SIZE 0 := by
  simp [padRow_eq_append]

theorem matrixRow_eq_claimedRow (cache : Cache) (c mid : Int) :
    matrixRow cache c mid = claimedRow cache c mid := by
  unfold matrixRow claimedRow
  cases h1 : alookup cache mid with
  | none => simp [alookup, padRow_nil]
  | some cm =>
    cases h2 : alookup cm c with
    | none => simp [h2, padRow_nil]
    | some chunk => simp [h2, padRow_eq_append chunk]

theorem getD_replicate_zero (n j : Nat) :
    (List.replicate n (0 : Int)).getD j 0 = 0 := by
  induction n generalizing j with
  | zero => simp
  | succ n ih =>
    cases j with
    | zero => simp [List.replicate]
    | succ j =>
      show (List.replicate n (0 : Int)).getD j 0 = 0
      exact ih j

theorem dotColumn_map_sum (ids : List Int) (v : List Int) (f : Int → Bytes)
    (j : Nat) :
    dotColumn v (ids.map f) j =
      ((ids.zip v).map (fun p => p.2 * (f p.1).getD j 0)).sum := by
  induction ids generalizing v with
  | nil => cases v <;> simp [dotColumn]
  | cons i ids ih =>
    cases v with
    | nil => simp [dotColumn]
    | cons a v' => simp [dotColumn, ih, mul_comm]

theorem dotColumn_eq_zero (v : List Int) (M : List Bytes) (j : Nat)
    (h : ∀ r ∈ M, r.getD j 0 = 0) : dotColumn v M j = 0 := by
  induction v generalizing M with
  | nil => cases M <;> simp [dotColumn]
  | cons a v' ih =>
    cases M with
    | nil => simp [dotColumn]
    | cons r M' =>
      have hr := h r (by simp)
      have hM' : ∀ r' ∈ M', r'.getD j 0 = 0 := fun r' hr' => h r' (by simp [hr'])
      show a * r.getD j 0 + dotColumn v' M' j = 0
      rw [hr, ih M' hM', mul_zero, add_zero]

theorem dotColumn_set (v : List Int) (M : List Bytes) (pos : Nat) (x : Int)
    (j : Nat) (h : (M.getD pos []).getD j 0 = 0) :
    dotColumn (v.set pos x) M j = dotColumn v M j := by
  induction v generalizing M pos with
  | nil => simp
  | cons a v' ih =>
    cases pos with
    | zero =>
      cases M with
      | nil => simp [dotColumn]
      | cons r M' =>
        simp only [List.getD_cons_zero] at h
        show x * r.getD j 0 + dotColumn v' M' j = a * r.getD j 0 + dotColumn v' M' j
        rw [h, mul_zero, mul_zero]
    | succ pos =>
      cases M with
      | nil => simp [dotColumn]
      | cons r M' =>
        simp only [List.getD_cons_succ] at h
        show a * r.getD j 0 + dotColumn (v'.set pos x) M' j =
          a * r.getD j 0 + dotColumn v' M' j
        rw [ih M' pos h]

theorem respond_length (M : List Bytes) (v : List Int) :
    (respond M v).length = CHUNK_SIZE := by
  simp [respond]

theorem respond_getD (M : List Bytes) (v : List Int) (j : Nat)
    (hj : j < CHUNK_SIZE) :
    (respond M v).getD j 0 = dotColumn v M j % 256 := by
  unfold respond
  rw [List.getD_eq_getElem?_getD, List.getElem?_map,
    List.getElem?_range hj]
  rfl

theorem checkVectors_eq_none_iff (n : Nat) (vs : List (List Int)) :
    checkVectors n vs = none ↔
      ∀ v ∈ vs, v.length = n ∧ ∀ x ∈ v, 0 ≤ x ∧ x ≤ 255 := by
  induction vs with
  | nil => simp [checkVectors]
  | cons v rest ih =>
    by_cases h1 : v.length = n
    · by_cases h2 : (v.any fun x => x < 0 || 255 < x) = true
      · rcases List.any_eq_true.mp h2 with ⟨x, hx, hpx⟩
        have hbad : ¬(0 ≤ x ∧ x ≤ 255) := by
          have hout : x < 0 ∨ 255 < x := by simpa using hpx
          omega
        constructor
        · intro hc
          exfalso
          unfold checkVectors at hc
          rw [if_neg (not_not_intro h1), if_pos h2] at hc
          cases hc
        · intro hall
          exact absurd ((hall v (by simp)).2 x hx) hbad
      · have h2' : (v.any fun x => x < 0 || 255 < x) = false := by
          simpa using h2
        have hgood : ∀ x ∈ v, 0 ≤ x ∧ x ≤ 255 := by
          intro x hx
          have hnx := List.any_eq_false.mp h2' x hx
          have : ¬(x < 0 ∨ 255 < x) := by simpa using hnx
          omega
        have hstep : checkVectors n (v :: rest) = checkVectors n rest := by
          unfold checkVectors
          rw [if_neg (not_not_intro h1), if_neg (by simp [h2'])]
          rw [← checkVectors.eq_def]
        rw [hstep, ih]
        constructor
        · intro hrest v' hv'
          rcases List.mem_cons.mp hv' with h' | h'
          · subst h'; exact ⟨h1, hgood⟩
          · exact hrest v' h'
        · intro hall v' hv'
          exact hall v' (by simp [hv'])
    · constructor
      · intro hc
        exfalso
        unfold checkVectors at hc
        rw [if_pos h1] at hc
        cases hc
      · intro hall
        exact absurd (hall v (by simp)).1 h1

theorem compute_ok_of_valid (cache : Cache) (vectors : List (List Int))
    (chunkIdx : Int) (hK : vectors.length = K)
    (hchk : checkVectors (nModules cache) vectors = none) :
    compute cache vectors chunkIdx =
      .ok (vectors.map (respond (buildMatrix cache chunkIdx))) := by
  unfold compute
  rw [if_neg (not_not_intro hK), hchk]

theorem compute_isOk_iff (cache : Cache) (vectors : List (List Int))
    (chunkIdx : Int) :
    (compute cache vectors chunkIdx).isOk = true ↔
      (vectors.length = K ∧ checkVectors (nModules cache) vectors = none) := by
  unfold compute
  by_cases hK : vectors.length = K
  · rw [if_neg (not_not_intro hK)]
    cases hchk : checkVectors (nModules cache) vectors with
    | none => simp [Except.isOk, Except.toBool, hK]
    | some e => simp [Except.isOk, Except.toBool, hK]
  · rw [if_pos hK]
    simp [Except.isOk, Except.toBool, hK]

theorem getD_map_of_lt {α β : Type} (f : α → β) (l : List α) (i : Nat)
    (d : α) (d' : β) (h : i < l.length) :
    (l.map f).getD i d' = f (l.getD i d) := by
  rw [List.getD_eq_getElem?_getD, List.getElem?_map,
    List.getElem?_eq_getElem h, List.getD_eq_getElem?_getD,
    List.getElem?_eq_getElem h]
  rfl

theorem respond_set (M : List Bytes) (v : List Int) (pos : Nat) (x : Int)
    (h : ∀ j, (M.getD pos []).getD j 0 = 0) :
    respond M (v.set pos x) = respond M v := by
  unfold respond
  apply List.map_congr_left
  intro j _
  rw [dotColumn_set v M pos x j (h j)]

/-! ### Claim theorems -/

/-- C4 (code bug): `delete_module` does return whether a module row was
removed, but it does **not** cascade to the module's quiz rows: the fresh
sqlite3 connection it opens never executes `PRAGMA foreign_keys=ON`, which
SQLite defaults to OFF per connection, so the schema's `ON DELETE CASCADE`
never fires.  On a catalog holding module 1 and one quiz question for
module 1, `delete_module 1` reports success yet leaves the quiz row
orphaned; the same DELETE on a connection with foreign keys enabled (as the
schema and spec intend) would have removed it. -/
theorem delete_module_orphans_quiz_rows :
    delete_module { modules := [sampleModule], quizzes := [sampleQuiz] } 1 =
      (true, { modules := [], quizzes := [sampleQuiz] }) ∧
    (sqliteDeleteModule true
        { modules := [sampleModule], quizzes := [sampleQuiz] } 1).2.quizzes = [] := by
  exact ⟨by decide, by decide⟩

/-- C8: the `/integrity` route returns the hex SHA-256 digest of the stored
(possibly shorter than `CHUNK_SIZE`, unpadded) bytes `cache[m][c]` whenever
module `m` is cached and chunk `c` is present in it, and it fails with a 404
exactly when either level is absent.  The statement is universally
quantified over the digest primitive `sha256hex` (`hashlib.sha256`), and the
success value applies it to the raw stored bytes, not to a padded row. -/
theorem integrity_hash_contract (sha256hex : Bytes → String) (cache : Cache)
    (mid c : Int) :
    (∀ cm data, alookup cache mid = some cm → alookup cm c = some data →
        integrityEndpoint sha256hex cache mid c = .ok (sha256hex data)) ∧
    ((∃ e, integrityEndpoint sha256hex cache mid c = .error e) ↔
        (alookup cache mid = none ∨
          ∃ cm, alookup cache mid = some cm ∧ alookup cm c = none)) ∧
    (∀ e, integrityEndpoint sha256hex cache mid c = .error e → e.1 = 404) := by
  refine ⟨?_, ?_, ?_⟩
  · intro cm data h1 h2
    simp [integrityEndpoint, h1, h2]
  · cases h1 : alookup cache mid with
    | none => simp [integrityEndpoint, h1]
    | some cm =>
      cases h2 : alookup cm c with
      | none => simp [integrityEndpoint, h1, h2]
      | some data => simp [integrityEndpoint, h1, h2]
  · intro e he
    cases h1 : alookup cache mid with
    | none =>
      simp only [integrityEndpoint, h1] at he
      cases he
      rfl
    | some cm =>
      cases h2 : alookup cm c with
      | none =>
        simp only [integrityEndpoint, h1, h2] at he
        cases he
        rfl
      | some data =>
        simp [integrityEndpoint, h1, h2] at he

/-- C9: `compute` is deterministic — a pure function of the cache, the
vectors and the chunk index; two runs on identical inputs return
byte-identical response lists. -/
theorem compute_deterministic (c1 c2 : Cache) (vs1 vs2 : List (List Int))
    (i1 i2 : Int) (hc : c1 = c2) (hv : vs1 = vs2) (hi : i1 = i2) :
    compute c1 vs1 i1 = compute c2 vs2 i2 := by
  subst hc; subst hv; subst hi; rfl

/-- Witness for C9 at a concrete input. -/
theorem compute_deterministic_witness :
    ([(1, [(0, [7])])] : Cache) = [(1, [(0, [7])])] ∧
      compute [(1, [(0, [7])])] [[1], [0], [0]] 0 =
        compute [(1, [(0, [7])])] [[1], [0], [0]] 0 :=
  ⟨rfl, compute_deterministic [(1, [(0, [7])])] [(1, [(0, [7])])]
    [[1], [0], [0]] [[1], [0], [0]] 0 0 rfl rfl rfl⟩

/-- C7: `validate_session` returns false for an unknown token; returns false
and evicts the token when its deadline has passed; otherwise returns true
and slides the expiry to `now + SESSION_TTL`, so a second validation issued
less than `SESSION_TTL` after a successful one also returns true. -/
theorem validate_session_contract (s : SessionStore) (tok : String) (now : Int) :
    (alookup s tok = none → validate_session now s tok = (false, s)) ∧
    (∀ sess, alookup s tok = some sess → sess.expires < now →
        validate_session now s tok = (false, sessErase s tok) ∧
        alookup (sessErase s tok) tok = none) ∧
    (∀ sess, alookup s tok = some sess → now ≤ sess.expires →
        (validate_session now s tok).1 = true ∧
        alookup (validate_session now s tok).2 tok =
          some { ghost_id := sess.ghost_id, expires := now + SESSION_TTL }) ∧
    (∀ s2 now2, validate_session now s tok = (true, s2) →
        now2 - now < SESSION_TTL → (validate_session now2 s2 tok).1 = true) := by
  refine ⟨?_, ?_, ?_, ?_⟩
  · intro h
    simp [validate_session, h]
  · intro sess h hexp
    exact ⟨by simp [validate_session, h, hexp], alookup_sessErase s tok⟩
  · intro sess h hexp
    have hlt : ¬sess.expires < now := not_lt.mpr hexp
    constructor
    · simp [validate_session, h, hlt]
    · simp only [validate_session, h, if_neg hlt]
      exact alookup_sessSet s tok sess _ h
  · intro s2 now2 hval hlt
    rcases h : alookup s tok with _ | sess
    · simp [validate_session, h] at hval
    · by_cases hexp : sess.expires < now
      · simp [validate_session, h, hexp] at hval
      · simp only [validate_session, h, if_neg hexp] at hval
        have hs2 : s2 = sessSet s tok { sess with expires := now + SESSION_TTL } := by
          exact (Prod.mk.injEq _ _ _ _ ▸ hval).2.symm
        have hfind : alookup s2 tok =
            some { sess with expires := now + SESSION_TTL } := by
          rw [hs2]
          exact alookup_sessSet s tok sess _ h
        have : ¬(now + SESSION_TTL < now2) := by omega
        simp [validate_session, hfind, this]

/-- C1: on a non-empty chunk cache (with the well-formedness every cache
built by the loader from the ingest pipeline has: distinct module ids and
stored chunks of at most `CHUNK_SIZE` bytes), `compute` applied to `K`
vectors of the right length with entries in `[0, 255]` returns exactly `K`
responses, each exactly `CHUNK_SIZE` bytes, and byte `j` of response `i` is
the sum over modules in ascending module-id order of
`vectors[i][m] * M[m][j]` reduced mod 256, where row `M[m]` is the stored
chunk right-padded with zeros to `CHUNK_SIZE` (all-zero when absent) —
`claimedByte`/`claimedRow` transcribe the claim's formula verbatim. -/
theorem compute_matches_claim (cache : Cache) (vectors : List (List Int))
    (chunkIdx : Int) (hne : cache ≠ [])
    (hnd : (cache.map Prod.fst).Nodup)
    (hwf : ∀ p ∈ cache, ∀ q ∈ p.2, (q.2 : Bytes).length ≤ CHUNK_SIZE)
    (hK : vectors.length = K)
    (hlen : ∀ v ∈ vectors, v.length = nModules cache)
    (hrange : ∀ v ∈ vectors, ∀ x ∈ v, 0 ≤ x ∧ x ≤ 255) :
    ∃ rs, compute cache vectors chunkIdx = .ok rs ∧ rs.length = K ∧
      (∀ r ∈ rs, r.length = CHUNK_SIZE) ∧
      (∀ i j, i < K → j < CHUNK_SIZE →
        (rs.getD i []).getD j 0 =
          claimedByte cache chunkIdx (vectors.getD i []) j) := by
  have hchk : checkVectors (nModules cache) vectors = none :=
    (checkVectors_eq_none_iff _ _).mpr (fun v hv => ⟨hlen v hv, hrange v hv⟩)
  refine ⟨vectors.map (respond (buildMatrix cache chunkIdx)),
    compute_ok_of_valid cache vectors chunkIdx hK hchk, by simpa using hK,
    ?_, ?_⟩
  · intro r hr
    rcases List.mem_map.mp hr with ⟨v, _, rfl⟩
    exact respond_length _ _
  · intro i j hi hj
    have hi' : i < vectors.length := by rw [hK]; exact hi
    rw [getD_map_of_lt _ vectors i [] [] hi', respond_getD _ _ j hj]
    unfold buildMatrix
    rw [dotColumn_map_sum]
    unfold claimedByte
    simp only [matrixRow_eq_claimedRow]

/-- Witness for C1 at a concrete one-module cache. -/
theorem compute_matches_claim_witness :
    (([(1, [((0 : Int), ([7, 9] : Bytes))])] : Cache) ≠ [] ∧
      (([(1, [((0 : Int), ([7, 9] : Bytes))])] : Cache).map Prod.fst).Nodup ∧
      (∀ p ∈ ([(1, [((0 : Int), ([7, 9] : Bytes))])] : Cache),
        ∀ q ∈ p.2, (q.2 : Bytes).length ≤ CHUNK_SIZE) ∧
      ([[1], [0], [0]] : List (List Int)).length = K ∧
      (∀ v ∈ ([[1], [0], [0]] : List (List Int)),
        v.length = nModules [(1, [((0 : Int), ([7, 9] : Bytes))])]) ∧
      (∀ v ∈ ([[1], [0], [0]] : List (List Int)), ∀ x ∈ v, 0 ≤ x ∧ x ≤ 255)) ∧
    (∃ rs, compute [(1, [((0 : Int), ([7, 9] : Bytes))])] [[1], [0], [0]] 0 =
        .ok rs ∧ rs.length = K ∧
      (∀ r ∈ rs, r.length = CHUNK_SIZE) ∧
      (∀ i j, i < K → j < CHUNK_SIZE →
        (rs.getD i []).getD j 0 =
          claimedByte [(1, [((0 : Int), ([7, 9] : Bytes))])] 0
            (([[1], [0], [0]] : List (List Int)).getD i []) j)) :=
  ⟨⟨by decide, by decide, by decide, by decide, by decide, by decide⟩,
    compute_matches_claim [(1, [((0 : Int), ([7, 9] : Bytes))])] [[1], [0], [0]] 0
      (by decide) (by decide) (by decide) (by decide) (by decide) (by decide)⟩

/-- C2: the engine fails, producing no responses, exactly when a
precondition is violated — construction fails precisely on an empty cache,
and `compute` succeeds precisely when there are exactly `K` vectors, every
vector has length `n_modules`, and every entry lies in `[0, 255]`; `Except`
success carries all `K` responses, so failure produces none (no partial
success). -/
theorem engine_failure_characterization (cache : Cache)
    (vectors : List (List Int)) (chunkIdx : Int) :
    ((engineInit cache).isOk = true ↔ cache ≠ []) ∧
    ((compute cache vectors chunkIdx).isOk = true ↔
      (vectors.length = K ∧
        ∀ v ∈ vectors, v.length = nModules cache ∧
          ∀ x ∈ v, 0 ≤ x ∧ x ≤ 255)) ∧
    (∀ rs, compute cache vectors chunkIdx = .ok rs → rs.length = K) := by
  refine ⟨?_, ?_, ?_⟩
  · unfold engineInit
    by_cases h : nModules cache = 0
    · rw [if_pos h]
      have hlen0 : cache.length = 0 := by rw [← nModules_eq_length, h]
      simp [Except.isOk, Except.toBool, List.length_eq_zero.mp hlen0]
    · rw [if_neg h]
      have hlen0 : cache.length ≠ 0 := by rw [← nModules_eq_length]; exact h
      simp only [Except.isOk, Except.toBool, true_iff]
      intro hnil
      exact hlen0 (by simp [hnil])
  · rw [compute_isOk_iff, checkVectors_eq_none_iff]
  · intro rs hrs
    unfold compute at hrs
    by_cases hK : vectors.length = K
    · rw [if_neg (not_not_intro hK)] at hrs
      cases hchk : checkVectors (nModules cache) vectors with
      | some e => rw [hchk] at hrs; cases hrs
      | none =>
        rw [hchk] at hrs
        cases hrs
        simpa using hK
    · rw [if_pos hK] at hrs
      cases hrs

/-- C10: `compute` never rejects the chunk index — any integer, negative or
past every module's chunk count, succeeds as long as the value-level
preconditions on the vectors hold; and when no loaded module stores a chunk
at that index, all `K` responses are exactly `CHUNK_SIZE` zero bytes,
regardless of the vectors. -/
theorem compute_accepts_any_chunk_idx (cache : Cache)
    (vectors : List (List Int)) (chunkIdx : Int) (hne : cache ≠ [])
    (hnd : (cache.map Prod.fst).Nodup)
    (hwf : ∀ p ∈ cache, ∀ q ∈ p.2, (q.2 : Bytes).length ≤ CHUNK_SIZE)
    (hK : vectors.length = K)
    (hlen : ∀ v ∈ vectors, v.length = nModules cache)
    (hrange : ∀ v ∈ vectors, ∀ x ∈ v, 0 ≤ x ∧ x ≤ 255) :
    ∃ rs, compute cache vectors chunkIdx = .ok rs ∧
      ((∀ p ∈ cache, alookup p.2 chunkIdx = none) →
        rs = List.replicate K (List.replicate CHUNK_SIZE 0)) := by
  have hchk : checkVectors (nModules cache) vectors = none :=
    (checkVectors_eq_none_iff _ _).mpr (fun v hv => ⟨hlen v hv, hrange v hv⟩)
  refine ⟨vectors.map (respond (buildMatrix cache chunkIdx)),
    compute_ok_of_valid cache vectors chunkIdx hK hchk, ?_⟩
  intro habs
  have hrow : ∀ mid ∈ sortedModuleIds cache,
      matrixRow cache chunkIdx mid = List.replicate CHUNK_SIZE 0 := by
    intro mid hmid
    have hkeys : mid ∈ cache.map Prod.fst := by
      unfold sortedModuleIds at hmid
      exact (List.mem_insertionSort _).mp hmid
    rcases alookup_of_mem_keys cache mid hkeys with ⟨cm, hcm, hmem⟩
    have hnone : alookup cm chunkIdx = none := habs (mid, cm) hmem
    unfold matrixRow
    rw [hcm]
    simp only [Option.getD_some]
    rw [hnone]
    exact padRow_nil
  have hzero : ∀ v, respond (buildMatrix cache chunkIdx) v =
      List.replicate CHUNK_SIZE 0 := by
    intro v
    unfold respond
    have hpt : ∀ j ∈ List.range CHUNK_SIZE,
        dotColumn v (buildMatrix cache chunkIdx) j % 256 = (fun _ => (0 : Int)) j := by
      intro j _
      have hz : dotColumn v (buildMatrix cache chunkIdx) j = 0 := by
        apply dotColumn_eq_zero
        intro r hr
        unfold buildMatrix at hr
        rcases List.mem_map.mp hr with ⟨mid, hmid, rfl⟩
        rw [hrow mid hmid]
        exact getD_replicate_zero _ _
      rw [hz]
      rfl
    rw [List.map_congr_left hpt, List.map_const', List.length_range]
  rw [List.map_congr_left (fun v _ => hzero v), List.map_const', hK]

/-- Witness for C10 at a negative chunk index. -/
theorem compute_accepts_any_chunk_idx_witness :
    (([(1, [((0 : Int), ([7] : Bytes))])] : Cache) ≠ [] ∧
      (([(1, [((0 : Int), ([7] : Bytes))])] : Cache).map Prod.fst).Nodup ∧
      (∀ p ∈ ([(1, [((0 : Int), ([7] : Bytes))])] : Cache),
        ∀ q ∈ p.2, (q.2 : Bytes).length ≤ CHUNK_SIZE) ∧
      ([[3], [0], [0]] : List (List Int)).length = K ∧
      (∀ v ∈ ([[3], [0], [0]] : List (List Int)),
        v.length = nModules [(1, [((0 : Int), ([7] : Bytes))])]) ∧
      (∀ v ∈ ([[3], [0], [0]] : List (List Int)), ∀ x ∈ v, 0 ≤ x ∧ x ≤ 255)) ∧
    (∃ rs, compute [(1, [((0 : Int), ([7] : Bytes))])] [[3], [0], [0]] (-5) =
        .ok rs ∧
      ((∀ p ∈ ([(1, [((0 : Int), ([7] : Bytes))])] : Cache),
          alookup p.2 (-5) = none) →
        rs = List.replicate K (List.replicate CHUNK_SIZE 0))) :=
  ⟨⟨by decide, by decide, by decide, by decide, by decide, by decide⟩,
    compute_accepts_any_chunk_idx [(1, [((0 : Int), ([7] : Bytes))])]
      [[3], [0], [0]] (-5) (by decide) (by decide) (by decide) (by decide)
      (by decide) (by decide)⟩

/-- C3: a module with no stored chunk at the queried index contributes zero
to every response byte — replacing its coordinate (position `pos` in the
canonical ascending ordering) in every vector by any other value in
`[0, 255]` leaves all `K` responses of `compute` unchanged. -/
theorem absent_module_neutral (cache : Cache) (chunkIdx : Int) (pos : Nat)
    (mid : Int) (hnd : (cache.map Prod.fst).Nodup)
    (hpos : (sortedModuleIds cache)[pos]? = some mid)
    (habs : alookup ((alookup cache mid).getD []) chunkIdx = none)
    (vectors vectors' : List (List Int))
    (hK : vectors.length = K)
    (hlen : ∀ v ∈ vectors, v.length = nModules cache)
    (hrange : ∀ v ∈ vectors, ∀ x ∈ v, 0 ≤ x ∧ x ≤ 255)
    (hlen' : vectors'.length = vectors.length)
    (hrepl : ∀ i, i < vectors.length → ∃ x, 0 ≤ x ∧ x ≤ 255 ∧
        vectors'[i]? = some ((vectors.getD i []).set pos x)) :
    compute cache vectors' chunkIdx = compute cache vectors chunkIdx := by
  have hchk : checkVectors (nModules cache) vectors = none :=
    (checkVectors_eq_none_iff _ _).mpr (fun v hv => ⟨hlen v hv, hrange v hv⟩)
  have hmem' : ∀ v' ∈ vectors', ∃ i x, i < vectors.length ∧ 0 ≤ x ∧ x ≤ 255 ∧
      v' = (vectors.getD i []).set pos x := by
    intro v' hv'
    rcases List.mem_iff_getElem?.mp hv' with ⟨i, hi⟩
    have hilt : i < vectors.length := by
      rw [← hlen']
      by_contra hge
      rw [List.getElem?_eq_none (le_of_not_lt hge)] at hi
      cases hi
    rcases hrepl i hilt with ⟨x, hx0, hx255, hset⟩
    rw [hset] at hi
    cases hi
    exact ⟨i, x, hilt, hx0, hx255, rfl⟩
  have hchk' : checkVectors (nModules cache) vectors' = none := by
    apply (checkVectors_eq_none_iff _ _).mpr
    intro v' hv'
    rcases hmem' v' hv' with ⟨i, x, hilt, hx0, hx255, rfl⟩
    have hvmem : vectors.getD i [] ∈ vectors := by
      rw [List.getD_eq_getElem _ _ hilt]
      exact List.getElem_mem hilt
    constructor
    · rw [List.length_set]
      exact hlen _ hvmem
    · intro y hy
      rcases List.mem_or_eq_of_mem_set hy with hmem | rfl
      · exact hrange _ hvmem y hmem
      · exact ⟨hx0, hx255⟩
  have hK' : vectors'.length = K := hlen'.trans hK
  rw [compute_ok_of_valid cache vectors chunkIdx hK hchk,
    compute_ok_of_valid cache vectors' chunkIdx hK' hchk']
  have hrowzero : ∀ j,
      ((buildMatrix cache chunkIdx).getD pos []).getD j 0 = 0 := by
    intro j
    have hM : (buildMatrix cache chunkIdx)[pos]? =
        some (matrixRow cache chunkIdx mid) := by
      unfold buildMatrix
      rw [List.getElem?_map, hpos]
      rfl
    have hmr : matrixRow cache chunkIdx mid = List.replicate CHUNK_SIZE 0 := by
      unfold matrixRow
      rw [habs]
      exact padRow_nil
    have houter : (buildMatrix cache chunkIdx).getD pos [] =
        List.replicate CHUNK_SIZE 0 := by
      rw [List.getD_eq_getElem?_getD, hM, Option.getD_some, hmr]
    rw [houter]
    exact getD_replicate_zero _ _
  congr 1
  apply List.ext_getElem?
  intro i
  rw [List.getElem?_map, List.getElem?_map]
  by_cases hi : i < vectors.length
  · rcases hrepl i hi with ⟨x, _, _, hset⟩
    rw [hset, List.getElem?_eq_getElem hi]
    have hre : respond (buildMatrix cache chunkIdx)
        ((vectors.getD i []).set pos x) =
        respond (buildMatrix cache chunkIdx) vectors[i] := by
      rw [respond_set _ _ pos x hrowzero, List.getD_eq_getElem _ _ hi]
    exact congrArg some hre
  · have h1 : vectors'[i]? = none :=
      List.getElem?_eq_none (by rw [hlen']; exact le_of_not_lt hi)
    have h2 : vectors[i]? = none := List.getElem?_eq_none (le_of_not_lt hi)
    rw [h1, h2]

/-- Witness for C3: a two-module cache where module 5 has no chunk at
index 1; changing its coordinate from 0 to 200 in every vector is shown
(by the theorem) to leave the responses unchanged. -/
theorem absent_module_neutral_witness :
    ((([(5, [((0 : Int), ([1] : Bytes))]), (2, [(1, [4])])] : Cache).map
        Prod.fst).Nodup ∧
      (sortedModuleIds [(5, [((0 : Int), ([1] : Bytes))]), (2, [(1, [4])])])[1]? =
        some 5 ∧
      alookup ((alookup ([(5, [((0 : Int), ([1] : Bytes))]), (2, [(1, [4])])] :
        Cache) 5).getD []) 1 = none ∧
      ([[1, 0], [0, 0], [0, 0]] : List (List Int)).length = K) ∧
    compute [(5, [((0 : Int), ([1] : Bytes))]), (2, [(1, [4])])]
        [[1, 200], [0, 200], [0, 200]] 1 =
      compute [(5, [((0 : Int), ([1] : Bytes))]), (2, [(1, [4])])]
        [[1, 0], [0, 0], [0, 0]] 1 :=
  ⟨⟨by decide, by decide, by decide, by decide⟩,
    absent_module_neutral [(5, [((0 : Int), ([1] : Bytes))]), (2, [(1, [4])])]
      1 1 5 (by decide) (by decide) (by decide)
      [[1, 0], [0, 0], [0, 0]] [[1, 200], [0, 200], [0, 200]]
      (by decide) (by decide) (by decide) (by decide)
      (by
        intro i hi
        simp only [List.length_cons, List.length_nil] at hi
        interval_cases i <;> exact ⟨200, by decide, by decide, by decide⟩)⟩

theorem mem_dictSet {κ α : Type} [DecidableEq κ] (m : List (κ × α)) (k : κ)
    (v : α) : ∀ p ∈ dictSet m k v, p ∈ m ∨ p = (k, v) := by
  intro p hp
  unfold dictSet at hp
  by_cases h : (alookup m k).isSome
  · rw [if_pos h] at hp
    rcases List.mem_map.mp hp with ⟨q, hq, hqe⟩
    by_cases hqk : q.1 = k
    · right
      rw [← hqe]
      simp [hqk]
    · left
      rw [← hqe]
      simpa [hqk] using hq
  · rw [if_neg h] at hp
    rcases List.mem_append.mp hp with h' | h'
    · exact Or.inl h'
    · exact Or.inr (by simpa using h')

theorem loadFileStep_mem (pyInt : String → Option Int) (cm : ChunkMap)
    (f : String × Bytes) :
    ∀ q ∈ loadFileStep pyInt cm f,
      q ∈ cm ∨ (f.1.endsWith ".bin" = true ∧
        pyInt (f.1.dropRight 4) = some q.1 ∧ q.2 = f.2) := by
  intro q hq
  unfold loadFileStep at hq
  by_cases hb : f.1.endsWith ".bin"
  · rw [if_pos hb] at hq
    cases hj : pyInt (f.1.dropRight 4) with
    | none => rw [hj] at hq; exact Or.inl hq
    | some j =>
      rw [hj] at hq
      have hq' : q ∈ dictSet cm j f.2 := hq
      rcases mem_dictSet _ _ _ q hq' with h | h
      · exact Or.inl h
      · subst h
        exact Or.inr ⟨hb, rfl, rfl⟩
  · rw [if_neg hb] at hq; exact Or.inl hq

theorem foldl_loadFileStep_mem (pyInt : String → Option Int) :
    ∀ (files : List (String × Bytes)) (acc : ChunkMap) (q : Int × Bytes),
      q ∈ files.foldl (loadFileStep pyInt) acc →
      q ∈ acc ∨ ∃ f ∈ files, f.1.endsWith ".bin" = true ∧
        pyInt (f.1.dropRight 4) = some q.1 ∧ q.2 = f.2 := by
  intro files
  induction files with
  | nil => intro acc q hq; exact Or.inl hq
  | cons f files ih =>
    intro acc q hq
    rw [List.foldl_cons] at hq
    rcases ih (loadFileStep pyInt acc f) q hq with h | ⟨f', hf', rest⟩
    · rcases loadFileStep_mem pyInt acc f q h with h' | h'
      · exact Or.inl h'
      · exact Or.inr ⟨f, by simp, h'⟩
    · exact Or.inr ⟨f', by simp [hf'], rest⟩

theorem preloadStep_mem (pyInt : String → Option Int) (validIds : List Int)
    (cache : Cache) (e : DirEntry) :
    ∀ p ∈ preloadStep pyInt validIds cache e,
      p ∈ cache ∨ (p.1 ∈ validIds ∧ e.isDir = true ∧
        pyInt e.name = some p.1 ∧ p.2 = loadModuleDir pyInt e.files) := by
  intro p hp
  unfold preloadStep at hp
  by_cases hd : e.isDir
  · rw [if_pos hd] at hp
    cases hm : pyInt e.name with
    | none => rw [hm] at hp; exact Or.inl hp
    | some mid =>
      rw [hm] at hp
      have hp' : p ∈ if mid ∈ validIds then
          dictSet cache mid (loadModuleDir pyInt e.files) else cache := hp
      by_cases hv : mid ∈ validIds
      · rw [if_pos hv] at hp'
        rcases mem_dictSet _ _ _ p hp' with h | h
        · exact Or.inl h
        · subst h
          exact Or.inr ⟨hv, hd, rfl, rfl⟩
      · rw [if_neg hv] at hp'; exact Or.inl hp'
  · rw [if_neg hd] at hp; exact Or.inl hp

theorem foldl_preloadStep_mem (pyInt : String → Option Int)
    (validIds : List Int) :
    ∀ (es : List DirEntry) (acc : Cache) (p : Int × ChunkMap),
      p ∈ es.foldl (preloadStep pyInt validIds) acc →
      p ∈ acc ∨ ∃ e ∈ es, p.1 ∈ validIds ∧ e.isDir = true ∧
        pyInt e.name = some p.1 ∧ p.2 = loadModuleDir pyInt e.files := by
  intro es
  induction es with
  | nil => intro acc p hp; exact Or.inl hp
  | cons e es ih =>
    intro acc p hp
    rcases ih _ p hp with h | ⟨e', he', rest⟩
    · rcases preloadStep_mem pyInt validIds acc e p h with h' | h'
      · exact Or.inl h'
      · exact Or.inr ⟨e, by simp, h'⟩
    · exact Or.inr ⟨e', by simp [he'], rest⟩

/-- C5: after any run of `preload_chunks`, every cached binding's module id
is one of the catalog's module ids and comes from a directory entry whose
name parses to it (non-directories, non-integer names, and ids missing from
the DB are skipped); and the `/catalog` response contains exactly the DB
rows that survive the optional conjunctive topic/tier filters and whose id
is loaded in the cache, in ascending id order. -/
theorem preload_subset_and_catalog_shape (pyInt : String → Option Int)
    (validIds : List Int) (entries : List DirEntry) (db : List ModuleRow)
    (topic : Option String) (tier : Option Int) :
    (∀ p ∈ preload_chunks pyInt validIds entries, p.1 ∈ validIds ∧
      ∃ e ∈ entries, e.isDir = true ∧ pyInt e.name = some p.1 ∧
        p.2 = loadModuleDir pyInt e.files) ∧
    (∀ files : List (String × Bytes), ∀ q ∈ loadModuleDir pyInt files,
      ∃ f ∈ files, f.1.endsWith ".bin" = true ∧
        pyInt (f.1.dropRight 4) = some q.1 ∧ q.2 = f.2) ∧
    (∀ r, r ∈ catalogModules (preload_chunks pyInt validIds entries) db
        topic tier ↔
      (r ∈ db ∧ passesTopic topic r = true ∧ passesTier tier r = true ∧
        r.id ∈ (preload_chunks pyInt validIds entries).map Prod.fst)) ∧
    (catalogModules (preload_chunks pyInt validIds entries) db topic
      tier).Pairwise (fun a b => a.id ≤ b.id) := by
  refine ⟨?_, ?_, ?_, ?_⟩
  · intro p hp
    rcases foldl_preloadStep_mem pyInt validIds entries [] p hp with h | h
    · cases h
    · rcases h with ⟨e, he, hv, hd, hm, hload⟩
      exact ⟨hv, e, he, hd, hm, hload⟩
  · intro files q hq
    rcases foldl_loadFileStep_mem pyInt files [] q hq with h | h
    · cases h
    · exact h
  · intro r
    unfold catalogModules get_bucket
    rw [List.mem_filter, List.mem_insertionSort, List.mem_filter]
    simp only [Bool.and_eq_true, decide_eq_true_eq]
    tauto
  · unfold catalogModules get_bucket
    haveI : IsTotal ModuleRow (fun a b => a.id ≤ b.id) :=
      ⟨fun a b => Int.le_total a.id b.id⟩
    haveI : IsTrans ModuleRow (fun a b => a.id ≤ b.id) :=
      ⟨fun _ _ _ h1 h2 => le_trans h1 h2⟩
    exact (List.sorted_insertionSort _ _).filter _

theorem splitChunks_length (l : Bytes) :
    (splitChunks l).length = (l.length + CHUNK_SIZE - 1) / CHUNK_SIZE := by
  induction l using splitChunks.induct with
  | case1 =>
    simp [splitChunks, CHUNK_SIZE]
  | case2 l hne ih =>
    rw [splitChunks, if_neg hne]
    have hl : l.length ≠ 0 := fun h0 => hne (List.length_eq_zero.mp h0)
    simp only [List.length_cons, List.length_drop] at ih ⊢
    rw [ih]
    unfold CHUNK_SIZE
    omega

theorem splitChunks_getElem? (l : Bytes) :
    ∀ j, j < (splitChunks l).length →
      (splitChunks l)[j]? =
        some ((l.drop (j * CHUNK_SIZE)).take CHUNK_SIZE) := by
  induction l using splitChunks.induct with
  | case1 =>
    intro j hj
    simp [splitChunks] at hj
  | case2 l hne ih =>
    intro j hj
    rw [splitChunks, if_neg hne] at hj ⊢
    cases j with
    | zero => simp
    | succ j =>
      rw [List.getElem?_cons_succ, ih j (by simpa using hj)]
      rw [List.drop_drop]
      congr 3
      ring

/-- C6: for a source whose compressed form has length `s`, `process_module`
registers `chunk_count = ceil(s / CHUNK_SIZE)` and writes files `<j>.bin`
for `j ∈ [0, chunk_count)`, file `j` holding
`compressed[j*CHUNK_SIZE : min((j+1)*CHUNK_SIZE, s)]`; every chunk but
possibly the last is exactly `CHUNK_SIZE` bytes and the last is stored at
its true length `s - (chunk_count-1)*CHUNK_SIZE`. -/
theorem process_module_chunk_layout (compress : Bytes → Bytes) (raw : Bytes) :
    (process_module compress raw).chunk_count =
      ((compress raw).length + CHUNK_SIZE - 1) / CHUNK_SIZE ∧
    (process_module compress raw).compressed_size = (compress raw).length ∧
    (process_module compress raw).files.map Prod.fst =
      List.range (process_module compress raw).chunk_count ∧
    (∀ q ∈ (process_module compress raw).files,
      q.2 = ((compress raw).drop (q.1 * CHUNK_SIZE)).take CHUNK_SIZE) ∧
    (∀ q ∈ (process_module compress raw).files,
      q.1 + 1 < (process_module compress raw).chunk_count →
        (q.2 : Bytes).length = CHUNK_SIZE) ∧
    (∀ q ∈ (process_module compress raw).files,
      q.1 + 1 = (process_module compress raw).chunk_count →
        (q.2 : Bytes).length = (compress raw).length - q.1 * CHUNK_SIZE) := by
  have hmem : ∀ q ∈ (process_module compress raw).files,
      q.1 < (splitChunks (compress raw)).length ∧
        q.2 = ((compress raw).drop (q.1 * CHUNK_SIZE)).take CHUNK_SIZE := by
    intro q hq
    rcases q with ⟨i, c⟩
    have h1 : (splitChunks (compress raw))[i]? = some c :=
      List.mk_mem_enum_iff_getElem?.mp hq
    have hi : i < (splitChunks (compress raw)).length := by
      by_contra hge
      rw [List.getElem?_eq_none (le_of_not_lt hge)] at h1
      cases h1
    have h2 := splitChunks_getElem? (compress raw) i hi
    rw [h1] at h2
    cases h2
    exact ⟨hi, rfl⟩
  have hcount : (process_module compress raw).chunk_count =
      ((compress raw).length + CHUNK_SIZE - 1) / CHUNK_SIZE :=
    splitChunks_length (compress raw)
  refine ⟨hcount, rfl, List.enum_map_fst _, fun q hq => (hmem q hq).2,
    ?_, ?_⟩
  · intro q hq hlast
    rcases hmem q hq with ⟨hi, hc⟩
    rw [hc, List.length_take, List.length_drop]
    rw [show (process_module compress raw).chunk_count =
      (splitChunks (compress raw)).length from rfl, splitChunks_length] at hlast
    unfold CHUNK_SIZE at *
    omega
  · intro q hq hlast
    rcases hmem q hq with ⟨hi, hc⟩
    rw [hc, List.length_take, List.length_drop]
    rw [show (process_module compress raw).chunk_count =
      (splitChunks (compress raw)).length from rfl, splitChunks_length] at hlast
    rw [splitChunks_length] at hi
    unfold CHUNK_SIZE at *
    omega

end TechThrive
